import Mathlib

/-!
Shallow embedding of the Little Man Computer (`src/lmc.py`): the
`Assembler` (source text to machine code) and the `Simulator` (a
fetch-decode-execute state machine), together with theorems checking the
specification's claims against this embedding.

Modelling conventions:
* Python strings are modelled as `List Char` (ASCII programs); Python
  `int` is `Int` (arbitrary precision, as in Python).
* Python runtime errors (`KeyError`, `IndexError`, `TypeError`, a failed
  `assert`) are modelled as `none` in an `Option`-valued result.
* Python `divmod(a, 100)` is `(Int.ediv a 100, Int.emod a 100)`: for the
  positive divisor 100, Euclidean and Python floor division coincide.
-/

/-- State of the simulator: program counter, accumulator, the mailbox
registers, and the halted / awaiting-input flags
(attributes set in `Simulator.reset`). -/
structure LMCState where
  pc : Int
  acc : Int
  mailboxes : List Int
  halted : Bool
  awaiting_input : Bool
deriving DecidableEq

namespace Simulator

/-- Simulator.reset: zero the registers, zero-fill the 100 mailboxes,
clear both flags. -/
def reset : LMCState := ⟨0, 0, List.replicate 100 0, false, false⟩

/-- Python list read `mb[i]`: a non-negative index reads in range, a
negative index wraps from the end, and anything else is an `IndexError`
(modelled as `none`). -/
def mbGet (mb : List Int) (i : Int) : Option Int :=
  if 0 ≤ i then mb[i.toNat]?
  else if (-i).toNat ≤ mb.length then mb[mb.length - (-i).toNat]?
  else none

/-- Python list write `mb[i] = v`, with the same index rules as `mbGet`. -/
def mbSet (mb : List Int) (i : Int) (v : Int) : Option (List Int) :=
  if 0 ≤ i then
    if i.toNat < mb.length then some (mb.set i.toNat v) else none
  else if (-i).toNat ≤ mb.length then
    some (mb.set (mb.length - (-i).toNat) v)
  else none

/-- Loop body of `Simulator.load_program`:
`for i in range(n): mailboxes[i] = program[i]` (in use, `i` is always
below `program.length`, so `getD` agrees with the Python indexing). -/
def loadLoop (mb program : List Int) (n : Nat) : List Int :=
  (List.range n).foldl (fun mb i => mb.set i (program.getD i 0)) mb

/-- Simulator.load_program: copy the first `min len(mailboxes) len(program)`
entries of `program` into the mailboxes, then clear `halted`. -/
def load_program (s : LMCState) (program : List Int) : LMCState :=
  { s with
    mailboxes := loadLoop s.mailboxes program (min s.mailboxes.length program.length),
    halted := false }

/-- Simulator.load_input: `assert value <= 999` (a failed assertion is
`none`), then set the accumulator and clear `awaiting_input`. -/
def load_input (s : LMCState) (value : Int) : Option LMCState :=
  if value ≤ 999 then some { s with acc := value, awaiting_input := false }
  else none

/-- Simulator._fetch: read the mailbox at the current program counter. -/
def fetch (s : LMCState) : Option Int := mbGet s.mailboxes s.pc

/-- Simulator._decode: `divmod(instruction, 100)`; when the quotient digit
is 9 the whole instruction is the opcode and the operand is forced to 0. -/
def decode (instruction : Int) : Int × Int :=
  let opcode := Int.ediv instruction 100
  let operand := Int.emod instruction 100
  if opcode = 9 then (opcode * 100 + operand, 0) else (opcode, operand)

/-- Simulator._execute: increment `pc` first, then dispatch on the opcode;
an opcode matching no branch leaves everything but `pc` unchanged. -/
def execute (s : LMCState) (opcode operand : Int) : Option (LMCState × Option Int) :=
  let s := { s with pc := s.pc + 1 }
  if opcode = 0 then some ({ s with halted := true }, none)
  else if opcode = 1 then
    (mbGet s.mailboxes operand).map fun v => ({ s with acc := s.acc + v }, none)
  else if opcode = 2 then
    (mbGet s.mailboxes operand).map fun v => ({ s with acc := s.acc - v }, none)
  else if opcode = 3 then
    (mbSet s.mailboxes operand s.acc).map fun mb => ({ s with mailboxes := mb }, none)
  else if opcode = 5 then
    (mbGet s.mailboxes operand).map fun v => ({ s with acc := v }, none)
  else if opcode = 6 then some ({ s with pc := operand }, none)
  else if opcode = 7 then
    some (if s.acc = 0 then { s with pc := operand } else s, none)
  else if opcode = 8 then
    some (if 0 ≤ s.acc then { s with pc := operand } else s, none)
  else if opcode = 901 then some ({ s with awaiting_input := true, acc := 0 }, none)
  else if opcode = 902 then some (s, some s.acc)
  else some (s, none)

/-- Simulator.step: when halted, return with no output and no state
change; otherwise run one fetch-decode-execute cycle. -/
def step (s : LMCState) : Option (LMCState × Option Int) :=
  if s.halted then some (s, none)
  else
    match fetch s with
    | none => none
    | some instruction => execute s (decode instruction).1 (decode instruction).2

end Simulator

namespace PyStr

/-- Whitespace as recognised by Python `str.strip` / `str.split`
(restricted to the ASCII whitespace occurring in LMC source text). -/
def isWS (c : Char) : Bool := c.isWhitespace

/-- Python `str.upper` on one ASCII character. -/
def upperChar (c : Char) : Char :=
  if 'a' ≤ c ∧ c ≤ 'z' then Char.ofNat (c.toNat - 32) else c

/-- Python `str.upper` (ASCII). -/
def upper (l : List Char) : List Char := l.map upperChar

/-- Python `str.strip`: drop whitespace from both ends. -/
def strip (l : List Char) : List Char :=
  ((l.dropWhile isWS).reverse.dropWhile isWS).reverse

/-- Python `str.startswith` for a pattern given as a character list. -/
def startsWith : List Char → List Char → Bool
  | [], _ => true
  | _ :: _, [] => false
  | a :: d, b :: l => a = b && startsWith d l

/-- Python `line.split(sep)[0]` for a non-empty separator: the characters
before the first occurrence of `sep`. -/
def takeUntilSubstr (sep : List Char) : List Char → List Char
  | [] => []
  | c :: rest => if startsWith sep (c :: rest) then [] else c :: takeUntilSubstr sep rest

/-- Python `str.split("\n")`: split on each newline, keeping empty pieces. -/
def splitOnChar (sep : Char) : List Char → List (List Char)
  | [] => [[]]
  | c :: rest =>
    if c = sep then [] :: splitOnChar sep rest
    else
      match splitOnChar sep rest with
      | [] => [[c]]
      | t :: ts => (c :: t) :: ts

/-- Accumulator loop for Python `str.split()` (no separator): skip
whitespace runs, collect maximal non-whitespace tokens. -/
def splitWSAux : List Char → List Char → List (List Char)
  | [], cur => if cur = [] then [] else [cur.reverse]
  | c :: rest, cur =>
    if isWS c then
      if cur = [] then splitWSAux rest []
      else cur.reverse :: splitWSAux rest []
    else splitWSAux rest (c :: cur)

/-- Python `str.split()` with no separator. -/
def splitWS (l : List Char) : List (List Char) := splitWSAux l []

/-- Value of a digit string (only applied to all-digit strings). -/
def digitsVal (l : List Char) : Nat :=
  l.foldl (fun a c => a * 10 + (c.toNat - 48)) 0

/-- Python `int(str)` on a token: optional sign followed by digits;
anything else raises `ValueError` (modelled as `none`). -/
def pyInt (l : List Char) : Option Int :=
  let l := strip l
  match l with
  | '+' :: rest =>
    if rest ≠ [] ∧ rest.all Char.isDigit then some (digitsVal rest) else none
  | '-' :: rest =>
    if rest ≠ [] ∧ rest.all Char.isDigit then some (-(digitsVal rest : Int)) else none
  | _ =>
    if l ≠ [] ∧ l.all Char.isDigit then some (digitsVal l) else none

/-- Python `str.isnumeric` (for the ASCII tokens of LMC source text this
coincides with "non-empty and all decimal digits"). -/
def isNumeric (l : List Char) : Bool := !l.isEmpty && l.all Char.isDigit

end PyStr

namespace Assembler

open PyStr

/-- Tokenised line: optional label, optional mnemonic, optional operand
(the tuples built by `Assembler._tokenise`; Python `None` is `none`). -/
abbrev Token := Option (List Char) × Option (List Char) × Option (List Char)

/-- Mapping of mnemonics to base opcodes from `Assembler.__init__`;
DAT has no fixed opcode (its value is Python `None`, here `none`). -/
def instructions : List (List Char × Option Int) :=
  [("ADD".data, some 100), ("SUB".data, some 200), ("STA".data, some 300),
   ("LDA".data, some 500), ("BRA".data, some 600), ("BRZ".data, some 700),
   ("BRP".data, some 800), ("INP".data, some 901), ("OUT".data, some 902),
   ("HLT".data, some 0), ("DAT".data, none)]

/-- Dictionary lookup (`d[k]`, first match; `none` models `KeyError`). -/
def lookupAssoc {β : Type} (k : List Char) : List (List Char × β) → Option β
  | [] => none
  | (k', v) :: rest => if k = k' then some v else lookupAssoc k rest

/-- Membership test `t.upper() in instructions.keys()`. -/
def isMnemonic (t : List Char) : Bool := (lookupAssoc (upper t) instructions).isSome

/-- One iteration of `Assembler._normalise`: replace tabs, strip, drop
empty or comment lines, cut a trailing comment, strip again. `none`
models the loop's `continue`. -/
def normaliseLine (d : List Char) (line : List Char) : Option (List Char) :=
  let line := strip (line.map fun c => if c = '\t' then ' ' else c)
  if line = [] ∨ startsWith d line then none
  else some (strip (takeUntilSubstr d line))

/-- Assembler._normalise: split the program on newlines and clean each
line, keeping only non-empty, non-comment lines. -/
def normalise (d : List Char) (program : List Char) : List (List Char) :=
  (splitOnChar '\n' program).filterMap (normaliseLine d)

/-- One iteration of `Assembler._tokenise`: split the line on whitespace
and classify 1, 2 or 3 tokens into (label, mnemonic, operand); zero
tokens are skipped (`none`), any other count leaves all three fields
unset. -/
def tokeniseLine (line : List Char) : Option Token :=
  match splitWS line with
  | [] => none
  | [t0] => some (none, some (upper t0), none)
  | [t0, t1] =>
    if isMnemonic t0 then some (none, some (upper t0), some t1)
    else if isMnemonic t1 then some (some t0, some (upper t1), none)
    else some (none, none, none)
  | [t0, t1, t2] => some (some t0, some (upper t1), some t2)
  | _ => some (none, none, none)

/-- Assembler._tokenise over the normalised lines. -/
def tokenise (lines : List (List Char)) : List Token :=
  lines.filterMap tokeniseLine

/-- First pass of `Assembler._unlabel_lines`: the label table, mapping
each (truthy) label to the 0-based position of its line. New entries are
prepended so that a later duplicate definition shadows an earlier one,
as Python dict assignment does. -/
def buildLabels (lines : List Token) : List (List Char × Nat) :=
  lines.enum.foldl
    (fun labels p =>
      match p.2.1 with
      | some l => if l = [] then labels else (l, p.1) :: labels
      | none => labels)
    []

/-- Second pass of `Assembler._unlabel_lines` on one line: a truthy,
non-numeric operand of a non-DAT line is replaced by the label table
entry (`none` models the `KeyError` on an undefined label) and the label
field is dropped. -/
def unlabelLine (labels : List (List Char × Nat)) :
    Token → Option (Option (List Char) × Option (List Char))
  | (_, mnemonic, operand) =>
    match operand with
    | some op =>
      if op ≠ [] ∧ ¬ isNumeric op ∧ mnemonic ≠ some "DAT".data then
        match lookupAssoc op labels with
        | some addr => some (mnemonic, some (Nat.toDigits 10 addr))
        | none => none
      else some (mnemonic, operand)
    | none => some (mnemonic, operand)

/-- Option-valued map: the Python loop that builds a new list and can
raise (first failure aborts the whole call). -/
def mapO {α β : Type} (f : α → Option β) : List α → Option (List β)
  | [] => some []
  | x :: xs =>
    match f x, mapO f xs with
    | some y, some ys => some (y :: ys)
    | _, _ => none

/-- Assembler._unlabel_lines: build the label table from the whole
program, then rewrite every operand. -/
def unlabel_lines (lines : List Token) :
    Option (List (Option (List Char) × Option (List Char))) :=
  mapO (unlabelLine (buildLabels lines)) lines

/-- Opcodes of the operand-taking instruction families
(the tuple in `Assembler._generate_machine_code`). -/
def operandFamily : List Int := [100, 200, 300, 500, 600, 700, 800]

/-- One iteration of `Assembler._generate_machine_code`: DAT emits its
operand (0 when absent) parsed as an integer; otherwise the mnemonic is
looked up (`none` models the `KeyError` on an unknown or missing
mnemonic) and an operand-family opcode adds the parsed operand. -/
def generateLine : Option (List Char) × Option (List Char) → Option Int
  | (mnemonic, operand) =>
    if mnemonic = some "DAT".data then
      match operand with
      | none => some 0
      | some op => if op = [] then some 0 else pyInt op
    else
      match mnemonic with
      | none => none
      | some m =>
        match lookupAssoc m instructions with
        | none => none
        | some none => none
        | some (some opcode) =>
          if opcode ∈ operandFamily then
            match operand with
            | none => none
            | some op => (pyInt op).map fun n => opcode + n
          else some opcode

/-- Assembler._generate_machine_code over all unlabelled lines. -/
def generate_machine_code (lines : List (Option (List Char) × Option (List Char))) :
    Option (List Int) :=
  mapO generateLine lines

/-- Assembler.assemble with an explicit comment delimiter: normalise,
tokenise, resolve labels, generate machine code. -/
def assembleWith (d : List Char) (program : List Char) : Option (List Int) :=
  (unlabel_lines (tokenise (normalise d program))).bind generate_machine_code

/-- Assembler.assemble with the default comment delimiter `#`. -/
def assemble (program : String) : Option (List Int) :=
  assembleWith "#".data program.data

theorem mapO_length {α β : Type} (f : α → Option β) (xs : List α) (ys : List β)
    (h : mapO f xs = some ys) : ys.length = xs.length := by
  induction xs generalizing ys with
  | nil =>
    simp only [mapO, Option.some.injEq] at h
    simp [← h]
  | cons x xs ih =>
    simp only [mapO] at h
    cases hfx : f x <;> rw [hfx] at h
    · exact absurd h (by simp)
    · cases hm : mapO f xs <;> rw [hm] at h
      · exact absurd h (by simp)
      · simp only [Option.some.injEq] at h
        simp [← h, ih _ hm]

theorem mapO_getElem? {α β : Type} (f : α → Option β) (xs : List α) (ys : List β)
    (h : mapO f xs = some ys) (i : Nat) (x : α) (hx : xs[i]? = some x) :
    ∃ y, f x = some y ∧ ys[i]? = some y := by
  induction xs generalizing ys i with
  | nil => simp at hx
  | cons a xs ih =>
    simp only [mapO] at h
    cases hfa : f a <;> rw [hfa] at h
    · exact absurd h (by simp)
    · cases hm : mapO f xs <;> rw [hm] at h
      · exact absurd h (by simp)
      · simp only [Option.some.injEq] at h
        subst h
        cases i with
        | zero =>
          simp only [List.getElem?_cons_zero, Option.some.injEq] at hx
          subst hx
          exact ⟨_, hfa, by simp⟩
        | succ i =>
          simp only [List.getElem?_cons_succ] at hx ⊢
          exact ih _ hm _ hx

theorem mapO_mem {α β : Type} (f : α → Option β) (xs : List α) (ys : List β)
    (h : mapO f xs = some ys) (x : α) (hx : x ∈ xs) :
    ∃ y, f x = some y ∧ y ∈ ys := by
  induction xs generalizing ys with
  | nil => simp at hx
  | cons a xs ih =>
    simp only [mapO] at h
    cases hfa : f a <;> rw [hfa] at h
    · exact absurd h (by simp)
    · cases hm : mapO f xs <;> rw [hm] at h
      · exact absurd h (by simp)
      · simp only [Option.some.injEq] at h
        subst h
        rcases List.mem_cons.mp hx with rfl | hmem
        · exact ⟨_, hfa, by simp⟩
        · obtain ⟨y, hy, hymem⟩ := ih _ hm hmem
          exact ⟨y, hy, by simp [hymem]⟩

theorem mapO_eq_none {α β : Type} (f : α → Option β) (xs : List α) (x : α)
    (hx : x ∈ xs) (hfx : f x = none) : mapO f xs = none := by
  induction xs with
  | nil => simp at hx
  | cons a xs ih =>
    simp only [mapO]
    rcases List.mem_cons.mp hx with rfl | hmem
    · rw [hfx]
    · rw [ih hmem]
      cases f a <;> rfl

theorem filterMap_length_of_isSome {α β : Type} (f : α → Option β) (l : List α)
    (h : ∀ x ∈ l, (f x).isSome) : (l.filterMap f).length = l.length := by
  induction l with
  | nil => rfl
  | cons a l ih =>
    obtain ⟨y, hy⟩ := Option.isSome_iff_exists.mp (h a (by simp))
    rw [List.filterMap_cons, hy]
    simp only [List.length_cons]
    rw [ih fun x hx => h x (by simp [hx])]

end Assembler

namespace PyStr

theorem dropWhile_head_false {α : Type} (p : α → Bool) (l : List α) (a : α)
    (t : List α) (h : l.dropWhile p = a :: t) : p a = false := by
  induction l with
  | nil => simp at h
  | cons b l ih =>
    rw [List.dropWhile_cons] at h
    by_cases hb : p b
    · rw [if_pos hb] at h
      exact ih h
    · rw [if_neg hb] at h
      cases h
      simpa using hb

theorem dropWhile_append_singleton {α : Type} (p : α → Bool) (c : α)
    (hc : p c = false) (l : List α) :
    ∃ X, (l ++ [c]).dropWhile p = X ++ [c] := by
  induction l with
  | nil => exact ⟨[], by simp [List.dropWhile_cons, hc]⟩
  | cons a l ih =>
    by_cases ha : p a
    · simpa [List.dropWhile_cons, ha] using ih
    · exact ⟨a :: l, by simp [List.dropWhile_cons, ha]⟩

theorem strip_cons_of_not_ws (c : Char) (t : List Char) (hc : isWS c = false) :
    ∃ X, strip (c :: t) = c :: X := by
  unfold strip
  rw [List.dropWhile_cons, if_neg (by simp [hc]), List.reverse_cons]
  obtain ⟨X, hX⟩ := dropWhile_append_singleton isWS c hc t.reverse
  rw [hX, List.reverse_append]
  exact ⟨X.reverse, by simp⟩

theorem strip_shape_of_ne_nil (l : List Char) (h : strip l ≠ []) :
    ∃ a t, strip l = a :: t ∧ isWS a = false := by
  unfold strip at h ⊢
  cases hA : l.dropWhile isWS with
  | nil =>
    rw [hA] at h
    simp at h
  | cons a A =>
    have ha : isWS a = false := dropWhile_head_false _ _ _ _ hA
    rw [List.reverse_cons]
    obtain ⟨X, hX⟩ := dropWhile_append_singleton isWS a ha A.reverse
    rw [hX, List.reverse_append]
    exact ⟨a, X.reverse, by simp, ha⟩

theorem splitWSAux_ne_nil (l : List Char) (cur : List Char) (h : cur ≠ []) :
    splitWSAux l cur ≠ [] := by
  induction l generalizing cur with
  | nil => simp [splitWSAux, h]
  | cons c rest ih =>
    simp only [splitWSAux]
    by_cases hc : isWS c
    · rw [if_pos hc, if_neg h]
      simp
    · rw [if_neg hc]
      exact ih _ (by simp)

theorem splitWS_cons_ne_nil (c : Char) (t : List Char) (hc : isWS c = false) :
    splitWS (c :: t) ≠ [] := by
  simp only [splitWS, splitWSAux]
  rw [if_neg (by simp [hc])]
  exact splitWSAux_ne_nil t [c] (by simp)

end PyStr

namespace Simulator

/-- C1: with `acc = 0`, executing BRZ (opcode 7) and BRP (opcode 8) with
any operand `n` in `0..99` both set `pc` to `n`, overriding the default
pre-increment of `pc`, and change nothing else: the two branch
instructions agree whenever the accumulator is zero. -/
theorem brz_brp_agree_at_zero (s : LMCState) (n : Int)
    (hacc : s.acc = 0) (h0 : 0 ≤ n) (h99 : n ≤ 99) :
    execute s 7 n = some ({ s with pc := n }, none)
      ∧ execute s 8 n = some ({ s with pc := n }, none) := by
  constructor <;> simp [execute, hacc]

/-- Witness for C1 at a concrete state and operand. -/
theorem brz_brp_agree_at_zero_witness :
    execute ⟨3, 0, [0, 0], false, false⟩ 7 5 = some (⟨5, 0, [0, 0], false, false⟩, none)
      ∧ execute ⟨3, 0, [0, 0], false, false⟩ 8 5
          = some (⟨5, 0, [0, 0], false, false⟩, none) :=
  brz_brp_agree_at_zero ⟨3, 0, [0, 0], false, false⟩ 5 rfl (by decide) (by decide)

theorem loadLoop_succ (mb program : List Int) (n : Nat) :
    loadLoop mb program (n + 1) = (loadLoop mb program n).set n (program.getD n 0) := by
  simp [loadLoop, List.range_succ]

theorem loadLoop_length (mb program : List Int) (n : Nat) :
    (loadLoop mb program n).length = mb.length := by
  induction n with
  | zero => rfl
  | succ n ih => rw [loadLoop_succ, List.length_set, ih]

theorem loadLoop_getElem? (mb program : List Int) (n : Nat) (hn : n ≤ mb.length)
    (j : Nat) :
    (loadLoop mb program n)[j]? = if j < n then some (program.getD j 0) else mb[j]? := by
  induction n with
  | zero => simp [loadLoop]
  | succ n ih =>
    rw [loadLoop_succ]
    by_cases hj : j = n
    · subst hj
      rw [List.getElem?_set_eq_of_lt _ (by rw [loadLoop_length]; omega)]
      simp
    · rw [List.getElem?_set_ne (fun h => hj h.symm), ih (by omega)]
      rcases Nat.lt_or_ge j n with h | h
      · simp [h, Nat.lt_succ_of_lt h]
      · have : ¬ j < n := by omega
        have : ¬ j < n + 1 := by omega
        simp [*]

/-- C5: load_program copies exactly `min 100 program.length` values into
mailboxes `0 ..`, leaves every mailbox at an index at or beyond
`program.length` unchanged, clears `halted`, and leaves `pc`, `acc` and
`awaiting_input` untouched; a program longer than 100 entries is silently
truncated to the first 100 entries. -/
theorem load_program_frame (s : LMCState) (program : List Int)
    (hlen : s.mailboxes.length = 100) :
    (load_program s program).pc = s.pc
      ∧ (load_program s program).acc = s.acc
      ∧ (load_program s program).awaiting_input = s.awaiting_input
      ∧ (load_program s program).halted = false
      ∧ (load_program s program).mailboxes.length = 100
      ∧ (∀ j : Nat, j < min 100 program.length →
          (load_program s program).mailboxes[j]? = program[j]?)
      ∧ (∀ j : Nat, program.length ≤ j →
          (load_program s program).mailboxes[j]? = s.mailboxes[j]?) := by
  refine ⟨rfl, rfl, rfl, rfl, ?_, ?_, ?_⟩
  · simp [load_program, loadLoop_length, hlen]
  · intro j hj
    have hjp : j < program.length := by omega
    simp only [load_program]
    rw [loadLoop_getElem? _ _ _ (by omega), if_pos (by omega)]
    rw [List.getElem?_eq_getElem hjp, List.getD_eq_getElem _ _ hjp]
  · intro j hj
    simp only [load_program]
    rw [loadLoop_getElem? _ _ _ (by omega), if_neg (by omega)]

/-- Witness for C5: loading a two-entry program into a freshly reset
machine writes mailboxes 0 and 1 and leaves mailbox 99 at its old value. -/
theorem load_program_frame_witness :
    (load_program reset [7, 8]).mailboxes[1]? = some 8
      ∧ (load_program reset [7, 8]).mailboxes[99]? = some 0
      ∧ (load_program reset [7, 8]).halted = false := by
  have h := load_program_frame reset [7, 8] (by simp [reset])
  refine ⟨(h.2.2.2.2.2.1 1 (by norm_num)).trans rfl, (h.2.2.2.2.2.2 99 (by norm_num)).trans ?_, h.2.2.2.1⟩
  simp [reset]

/-- C6: load_input fails exactly when the value exceeds 999; for any
value at most 999 (negative values included) it sets the accumulator,
clears `awaiting_input`, and leaves `pc`, the mailboxes and `halted`
unchanged. -/
theorem load_input_contract (s : LMCState) (value : Int) :
    (load_input s value = none ↔ 999 < value)
      ∧ (value ≤ 999 →
          load_input s value = some { s with acc := value, awaiting_input := false }) := by
  constructor
  · constructor
    · intro h
      by_contra hle
      simp [load_input, Int.not_lt.mp hle] at h
    · intro h
      simp [load_input, Int.not_le.mpr h]
  · intro h
    simp [load_input, h]

/-- Witness for C6: a negative input is accepted and stored. -/
theorem load_input_contract_witness :
    load_input ⟨2, 5, [0], false, true⟩ (-4) = some ⟨2, -4, [0], false, false⟩ :=
  (load_input_contract ⟨2, 5, [0], false, true⟩ (-4)).2 (by decide)

/-- C4: calling `step` on a halted simulator is a no-op: it produces no
output and leaves the whole state (pc, acc, mailboxes, flags) unchanged. -/
theorem step_halted_noop (s : LMCState) (h : s.halted = true) :
    step s = some (s, none) := by
  simp [step, h]

/-- Witness for C4 at a concrete halted state. -/
theorem step_halted_noop_witness :
    step ⟨7, 42, [902, 0], true, false⟩ = some (⟨7, 42, [902, 0], true, false⟩, none) :=
  step_halted_noop ⟨7, 42, [902, 0], true, false⟩ rfl

/-- C7: on a non-halted state whose fetched instruction decodes to an
opcode with no dispatch branch (opcode 4, or a 9xx opcode other than 901
and 902), `step` only increments `pc`: accumulator, mailboxes, flags are
unchanged and no output is produced. -/
theorem step_unmapped_noop (s : LMCState) (instr : Int)
    (hh : s.halted = false) (hf : fetch s = some instr)
    (hop : (decode instr).1 = 4
      ∨ (900 ≤ (decode instr).1 ∧ (decode instr).1 ≤ 999
          ∧ (decode instr).1 ≠ 901 ∧ (decode instr).1 ≠ 902)) :
    step s = some ({ s with pc := s.pc + 1 }, none) := by
  obtain ⟨n0, n1, n2, n3, n5, n6, n7, n8, n901, n902⟩ :
      (decode instr).1 ≠ 0 ∧ (decode instr).1 ≠ 1 ∧ (decode instr).1 ≠ 2
        ∧ (decode instr).1 ≠ 3 ∧ (decode instr).1 ≠ 5 ∧ (decode instr).1 ≠ 6
        ∧ (decode instr).1 ≠ 7 ∧ (decode instr).1 ≠ 8
        ∧ (decode instr).1 ≠ 901 ∧ (decode instr).1 ≠ 902 := by
    rcases hop with h | ⟨ha, hb, hc, hd⟩ <;>
      exact ⟨by omega, by omega, by omega, by omega, by omega,
        by omega, by omega, by omega, by omega, by omega⟩
  have hexec : execute s (decode instr).1 (decode instr).2
      = some ({ s with pc := s.pc + 1 }, none) := by
    simp [execute, n0, n1, n2, n3, n5, n6, n7, n8, n901, n902]
  simp [step, hh, hf, hexec]

/-- Witness for C7: instruction 400 (opcode 4) only advances `pc`. -/
theorem step_unmapped_noop_witness :
    step ⟨0, 5, [400], false, false⟩ = some (⟨1, 5, [400], false, false⟩, none) := by
  rw [step_unmapped_noop ⟨0, 5, [400], false, false⟩ 400 rfl (by decide)
    (Or.inl (by decide))]
  decide

theorem execute_isSome (s : LMCState) (opcode operand : Int)
    (h0 : 0 ≤ operand) (h99 : operand ≤ 99) (hlen : s.mailboxes.length = 100) :
    (execute s opcode operand).isSome := by
  have hidx : operand.toNat < s.mailboxes.length := by rw [hlen]; omega
  have hget : (mbGet s.mailboxes operand).isSome := by
    simp [mbGet, h0, List.getElem?_eq_getElem hidx]
  have hset : ∀ v : Int, (mbSet s.mailboxes operand v).isSome := by
    intro v
    simp [mbSet, h0, hidx]
  simp only [execute]
  by_cases c0 : opcode = 0
  · simp [c0]
  by_cases c1 : opcode = 1
  · simp [c0, c1, hget]
  by_cases c2 : opcode = 2
  · simp [c0, c1, c2, hget]
  by_cases c3 : opcode = 3
  · simp [c0, c1, c2, c3, hset]
  by_cases c5 : opcode = 5
  · simp [c0, c1, c2, c3, c5, hget]
  by_cases c6 : opcode = 6
  · simp [c0, c1, c2, c3, c5, c6]
  by_cases c7 : opcode = 7
  · simp [c0, c1, c2, c3, c5, c6, c7]
  by_cases c8 : opcode = 8
  · simp [c0, c1, c2, c3, c5, c6, c7, c8]
  by_cases c901 : opcode = 901
  · simp [c0, c1, c2, c3, c5, c6, c7, c8, c901]
  by_cases c902 : opcode = 902
  · simp [c0, c1, c2, c3, c5, c6, c7, c8, c901, c902]
  simp [c0, c1, c2, c3, c5, c6, c7, c8, c901, c902]

/-- C10: on a non-halted state with `0 ≤ pc ≤ 99` and the 100-slot
mailbox array, `step` performs no out-of-range mailbox access (it cannot
raise an index error), and every decoded operand lies in `0..99` — it is
the instruction mod 100, forced to 0 for 9xx opcodes — so each mailbox
read or write of the ADD, SUB, STA, LDA branches stays in range. -/
theorem step_in_range (s : LMCState) (instruction : Int)
    (hh : s.halted = false) (hpc0 : 0 ≤ s.pc) (hpc99 : s.pc ≤ 99)
    (hlen : s.mailboxes.length = 100) :
    (step s).isSome
      ∧ 0 ≤ (decode instruction).2 ∧ (decode instruction).2 ≤ 99 := by
  have hdec : ∀ i : Int, 0 ≤ (decode i).2 ∧ (decode i).2 ≤ 99 := by
    intro i
    have hm0 : 0 ≤ Int.emod i 100 := Int.emod_nonneg i (by norm_num)
    have hm1 : Int.emod i 100 < 100 := Int.emod_lt_of_pos i (by norm_num)
    simp only [decode]
    split <;> constructor <;> simp <;> omega
  refine ⟨?_, hdec instruction⟩
  have hpcidx : s.pc.toNat < s.mailboxes.length := by rw [hlen]; omega
  have hfetch : (fetch s).isSome := by
    simp [fetch, mbGet, hpc0, List.getElem?_eq_getElem hpcidx]
  obtain ⟨instr, hi⟩ := Option.isSome_iff_exists.mp hfetch
  have hexec := execute_isSome s (decode instr).1 (decode instr).2
    (hdec instr).1 (hdec instr).2 hlen
  simp [step, hh, hi, hexec]

/-- Witness for C10 on a freshly reset machine and instruction 934. -/
theorem step_in_range_witness :
    (step reset).isSome ∧ 0 ≤ (decode 934).2 ∧ (decode 934).2 ≤ 99 :=
  step_in_range reset 934 rfl (by decide) (by decide) (by simp [reset])

end Simulator

namespace Assembler

open PyStr

theorem tokeniseLine_isSome (line : List Char) (h : splitWS line ≠ []) :
    (tokeniseLine line).isSome := by
  unfold tokeniseLine
  rcases hsw : splitWS line with _ | ⟨t0, _ | ⟨t1, _ | ⟨t2, rest⟩⟩⟩
  · exact absurd hsw h
  · simp
  · simp [apply_ite Option.isSome]
  · cases rest <;> simp

theorem mem_normalise_shape (program : List Char) (l : List Char)
    (h : l ∈ normalise "#".data program) :
    ∃ c t, l = c :: t ∧ isWS c = false := by
  obtain ⟨raw, hraw, hline⟩ := List.mem_filterMap.mp h
  simp only [normaliseLine] at hline
  split at hline
  · exact absurd hline (by simp)
  · rename_i hguard
    push_neg at hguard
    obtain ⟨hne, hsw⟩ := hguard
    obtain ⟨a, t, hat, ha⟩ := strip_shape_of_ne_nil _ hne
    rw [hat] at hline hsw
    simp only [takeUntilSubstr] at hline
    rw [if_neg hsw] at hline
    obtain ⟨X, hX⟩ := strip_cons_of_not_ws a _ ha
    rw [hX] at hline
    simp only [Option.some.injEq] at hline
    exact ⟨a, X, hline.symm, ha⟩

/-- C3: whenever assembly succeeds — in particular for every program
whose operands are numeric literals — the machine-code list has exactly
one entry per normalised source line (one per line that is neither empty
nor comment-only). -/
theorem assemble_length_eq (program : String) (out : List Int)
    (h : assemble program = some out) :
    out.length = (normalise "#".data program.data).length := by
  unfold assemble assembleWith at h
  cases hu : unlabel_lines (tokenise (normalise "#".data program.data)) with
  | none => rw [hu] at h; exact absurd h (by simp)
  | some u =>
    rw [hu] at h
    simp only [Option.some_bind] at h
    have l1 := mapO_length generateLine u out h
    have l2 := mapO_length _ _ _ hu
    have l3 : (tokenise (normalise "#".data program.data)).length
        = (normalise "#".data program.data).length := by
      apply filterMap_length_of_isSome
      intro x hx
      obtain ⟨c, t, rfl, hc⟩ := mem_normalise_shape program.data x hx
      exact tokeniseLine_isSome _ (splitWS_cons_ne_nil c t hc)
    omega

/-- Witness for C3 on a program with numeric operands, a comment line and
a blank line: three normalised lines, three machine-code entries. -/
theorem assemble_length_eq_witness :
    ([901, 305, 0] : List Int).length
      = (normalise "#".data "INP\nSTA 5 # store\n\n# note\nHLT".data).length :=
  assemble_length_eq "INP\nSTA 5 # store\n\n# note\nHLT" [901, 305, 0] (by decide)

/-- C2: the label table is built over the entire tokenised program before
any operand is rewritten, so two uses of the same label as an operand —
one before and one after the defining line — resolve to the same mailbox
address, namely the table entry for that label. -/
theorem label_resolution_uniform
    (lines : List Token) (i j : Nat) (L : List Char)
    (li lj mi mj : Option (List Char))
    (out : List (Option (List Char) × Option (List Char)))
    (hi : lines[i]? = some (li, mi, some L))
    (hj : lines[j]? = some (lj, mj, some L))
    (hL0 : L ≠ []) (hLn : isNumeric L = false)
    (hmi : mi ≠ some "DAT".data) (hmj : mj ≠ some "DAT".data)
    (hout : unlabel_lines lines = some out) :
    ∃ addr : Nat, lookupAssoc L (buildLabels lines) = some addr
      ∧ out[i]? = some (mi, some (Nat.toDigits 10 addr))
      ∧ out[j]? = some (mj, some (Nat.toDigits 10 addr)) := by
  obtain ⟨yi, hyi, houti⟩ := mapO_getElem? _ _ _ hout i _ hi
  obtain ⟨yj, hyj, houtj⟩ := mapO_getElem? _ _ _ hout j _ hj
  simp only [unlabelLine] at hyi hyj
  rw [if_pos ⟨hL0, by simp [hLn], hmi⟩] at hyi
  rw [if_pos ⟨hL0, by simp [hLn], hmj⟩] at hyj
  cases hl : lookupAssoc L (buildLabels lines) with
  | none =>
    rw [hl] at hyi
    exact absurd hyi (by simp)
  | some addr =>
    rw [hl] at hyi hyj
    simp only [Option.some.injEq] at hyi hyj
    subst hyi
    subst hyj
    exact ⟨addr, rfl, houti, houtj⟩

/-- Witness for C2: label `x`, defined at line 1, referenced from line 0
(forward) and line 2 (backward); both references resolve to mailbox 1. -/
theorem label_resolution_uniform_witness :
    ∃ addr : Nat,
      lookupAssoc "x".data (buildLabels
        [(none, some "BRA".data, some "x".data),
         (some "x".data, some "HLT".data, none),
         (none, some "BRA".data, some "x".data)]) = some addr
      ∧ ([(some "BRA".data, some ['1']), (some "HLT".data, none),
           (some "BRA".data, some ['1'])] :
          List (Option (List Char) × Option (List Char)))[0]?
          = some (some "BRA".data, some (Nat.toDigits 10 addr))
      ∧ ([(some "BRA".data, some ['1']), (some "HLT".data, none),
           (some "BRA".data, some ['1'])] :
          List (Option (List Char) × Option (List Char)))[2]?
          = some (some "BRA".data, some (Nat.toDigits 10 addr)) :=
  label_resolution_uniform
    [(none, some "BRA".data, some "x".data),
     (some "x".data, some "HLT".data, none),
     (none, some "BRA".data, some "x".data)]
    0 2 "x".data none none (some "BRA".data) (some "BRA".data)
    [(some "BRA".data, some ['1']), (some "HLT".data, none),
     (some "BRA".data, some ['1'])]
    (by decide) (by decide) (by decide) (by decide) (by decide) (by decide)
    (by decide)

/-- Counterexample for C8 as stated: the program `INP / A B C D / HLT`
contains a four-token line; the claim predicts that assembly succeeds
with the line dropped (yielding `[901, 0]`), but `assemble` fails
(a key lookup error during machine-code generation). -/
theorem long_line_not_dropped_cex :
    assemble "INP\nA B C D\nHLT" = none
      ∧ (none : Option (List Int)) ≠ some [901, 0] :=
  ⟨by decide, by decide⟩

/-- C8 amended: a normalised line with more than 3 whitespace-separated
tokens is tokenised as a triple with no label, no mnemonic and no
operand — it is not dropped — and its presence makes the whole `assemble`
call fail (the missing mnemonic is a key lookup error during machine-code
generation), so the line contributes no machine-code entry only because
assembly produces no output at all. -/
theorem long_line_fails_assembly (program : String) (l : List Char)
    (hmem : l ∈ normalise "#".data program.data)
    (hlen : 3 < (splitWS l).length) :
    assemble program = none := by
  have htok : tokeniseLine l = some (none, none, none) := by
    rcases hsw : splitWS l with _ | ⟨t0, _ | ⟨t1, _ | ⟨t2, _ | ⟨t3, rest⟩⟩⟩⟩ <;>
      rw [hsw] at hlen
    · simp at hlen
    · simp at hlen
    · simp at hlen
    · simp at hlen
    · unfold tokeniseLine
      rw [hsw]
  have hmemTok : ((none, none, none) : Token)
      ∈ tokenise (normalise "#".data program.data) :=
    List.mem_filterMap.mpr ⟨l, hmem, htok⟩
  unfold assemble assembleWith
  cases hu : unlabel_lines (tokenise (normalise "#".data program.data)) with
  | none => rfl
  | some u =>
    obtain ⟨y, hy, hymem⟩ := mapO_mem _ _ _ hu _ hmemTok
    have hy' : y = (none, none) := by
      simp only [unlabelLine] at hy
      simpa using hy.symm
    subst hy'
    have hg : generate_machine_code u = none :=
      mapO_eq_none generateLine u (none, none) hymem (by simp [generateLine])
    simp [hg]

/-- Witness for C8 (amended) on a single four-token line. -/
theorem long_line_fails_assembly_witness :
    assemble "one two three four" = none :=
  long_line_fails_assembly "one two three four" "one two three four".data
    (by decide) (by decide)

/-- Counterexample for C9 as stated: for the two-token line `foo bar`,
where the first token is not a known mnemonic, the claim predicts the
classification (label `foo`, mnemonic `BAR`), but tokenisation yields a
triple with all three fields unset. -/
theorem two_token_fallback_cex :
    tokeniseLine "foo bar".data = some (none, none, none)
      ∧ (some ((none : Option (List Char)), (none : Option (List Char)),
            (none : Option (List Char))) : Option Token)
          ≠ some (some "foo".data, some "BAR".data, none) :=
  ⟨by decide, by decide⟩

/-- C9 amended: a two-token line whose first token (upper-cased) is a
known mnemonic becomes (no label, mnemonic, operand); otherwise, when the
second token (upper-cased) is a known mnemonic it becomes (label,
mnemonic, no operand); when neither token is a known mnemonic all three
fields are left unset. -/
theorem two_token_classification (line t0 t1 : List Char)
    (h : splitWS line = [t0, t1]) :
    tokeniseLine line = some (
      if isMnemonic t0 then (none, some (upper t0), some t1)
      else if isMnemonic t1 then (some t0, some (upper t1), none)
      else (none, none, none)) := by
  simp only [tokeniseLine, h]
  split_ifs <;> rfl

/-- Witness for C9 (amended) on the line `count INP`: the first token is
not a mnemonic, the second is, so the line is (label, mnemonic). -/
theorem two_token_classification_witness :
    tokeniseLine "count INP".data = some (some "count".data, some "INP".data, none) := by
  rw [two_token_classification "count INP".data "count".data "INP".data (by decide)]
  decide

end Assembler
